import Mathlib

/-!
Verification development for the robit browser-automation program.

The program executes a declarative list of steps against a browser.  The
parts embedded here are the ones the claims are about:

* the extraction engine `match` (src/unnamed/part_000, lines 101-204),
* the page pool `browser.getPage` / `browser.releasePage`
  (src/unnamed/part_000, lines 373-401),
* the step interpreter's `repeat`, `crawl` and `go` cases
  (src/unnamed/part_000, lines 241-301),
* the wait-condition dispatch `wait` (src/unnamed/part_000, lines 49-93)
  together with `main`'s execution order (lines 411-415).

JS objects are modelled as insertion-ordered association lists, JS numbers
that matter as Nat/Int, thrown exceptions as `Except` errors.  The browser
driver (puppeteer) is an abstract collaborator: a structure of query
functions over an abstract element type.
-/

namespace Robit

/-- A JS runtime value stored in a result record: a scalar string, an array
(produced by the collision coercion at lines 188-189 of part_000), or a
reference to another record in the arena (nested result objects). -/
inductive JVal where
  | str (s : String)
  | arr (vs : List JVal)
  | obj (ref : Nat)

/-- A result record models one JS object: an association list that preserves
insertion order, as JS objects do for string keys. -/
abbrev Record := List (String × JVal)

/-- JS assignment `r[k] = v`: overwrite in place when the key exists
(keeping its position), otherwise append at the end. -/
def setKey : Record → String → JVal → Record
  | [], k, v => [(k, v)]
  | (k', v') :: r, k, v =>
    if k' = k then (k, v) :: r else (k', v') :: setKey r k v

/-- JS read `r[k]`: `none` models `undefined`. -/
def getKey : Record → String → Option JVal
  | [], _ => none
  | (k', v') :: r, k => if k' = k then some v' else getKey r k

/-- JS `[].concat(x)`: an array spreads, anything else becomes a singleton. -/
def jsToArr : JVal → List JVal
  | .arr vs => vs
  | v => [v]

/-- Lines 188-192 of part_000: assigning a freshly extracted value to a key.
`if (ref[key] !== undefined) ref[key] = [].concat(ref[key]).concat(value)
else ref[key] = value`. -/
def assignKey (r : Record) (k : String) (v : JVal) : Record :=
  match getKey r k with
  | some old => setKey r k (.arr (jsToArr old ++ jsToArr v))
  | none => setKey r k v

/-! ### The extraction spec

`step.data` is a JS object mapping result keys to either a bare selector
string or a descriptor object `{attribute, children, regex, selector, xpath}`.
The children mapping is a mutually inductive list so that all recursion over
specs is structural (and hence kernel-reducible). -/

mutual

inductive SpecVal where
  | strSel (s : String)
  | node (attrF : Option String) (children : SpecChildren)
         (regex : Option String) (selector : Option String)
         (xpath : Option String)

inductive SpecChildren where
  | nil
  | cons (key : String) (val : SpecVal) (rest : SpecChildren)

end

def SpecChildren.toList : SpecChildren → List (String × SpecVal)
  | .nil => []
  | .cons k v rest => (k, v) :: rest.toList

mutual

/-- Height of a spec value; bounds the number of worklist generations. -/
def SpecVal.depth : SpecVal → Nat
  | .strSel _ => 1
  | .node _ c _ _ _ => 1 + SpecChildren.depth c

def SpecChildren.depth : SpecChildren → Nat
  | .nil => 0
  | .cons _ v rest => max (SpecVal.depth v) (SpecChildren.depth rest)

end

/-- JS truthiness of an optional string field (absent and the empty string
are falsy). -/
def truthy : Option String → Bool
  | some s => !s.isEmpty
  | none => false

/-- JS `a || b` on two optional string fields: the first truthy one. -/
def jsOrOpt (a b : Option String) : Option String :=
  if truthy a then a else b

/-- JS `a || "dflt"` for a string field. -/
def jsOrStr (a : Option String) (dflt : String) : String :=
  match a with
  | some s => if s.isEmpty then dflt else s
  | none => dflt

/-- Lines 117-130 of part_000: decoding one spec entry into the five local
variables `attribute, children, regex, selector, xpath`. -/
def specFields (v : SpecVal) :
    String × SpecChildren × Option String × Option String × Option String :=
  match v with
  | .strSel s => ("textContent", .nil, none, some s, none)
  | .node a c r s x => (jsOrStr a "textContent", c, r, s, x)

/-! ### The abstract browser driver

`querySel e s` models `e.$$(s)` (and the element list that `e.$$eval(s, ...)`
maps over); `queryXp e s` models `e.$x(s)`; `attr e a` models evaluating
`node[a]` on the element; `content e` models `e.content()` for the page and
the `outerHTML` fallback for element handles (lines 172-176); `rmatch p c`
models `[...c.matchAll(new RegExp(p, "gi"))].map(([m]) => m)`, the list of
full non-overlapping matches in order. -/
structure Driver (E : Type) where
  querySel : E → String → List E
  queryXp : E → String → List E
  attr : E → String → String
  content : E → String
  rmatch : String → String → List String

/-- One worklist entry (line 104 of part_000):
`{ elem, key, result, value }`, where `result` is `null` for a top-level
entry and otherwise a reference to the parent result record. -/
structure WTask (E : Type) where
  elem : E
  key : String
  result : Option Nat
  value : SpecVal

/-- Mutable state of the `match` loop: the arena holds every result record
ever created (JS object identity becomes an arena index), `results` is the
top-level `results` array (entries are arena references; `none` models an
array hole, which the loop in fact never creates). -/
structure MState where
  arena : List Record
  results : List (Option Nat)

def MState.init : MState := ⟨[], []⟩

/-- Read record `i` of the arena. -/
def MState.recAt (st : MState) (i : Nat) : Record :=
  (st.arena.get? i).getD []

/-- Overwrite record `i` of the arena. -/
def MState.setRec (st : MState) (i : Nat) (r : Record) : MState :=
  { st with arena := st.arena.set i r }

/-- Allocate a fresh empty record, returning its index. -/
def MState.alloc (st : MState) : MState × Nat :=
  ({ st with arena := st.arena ++ [[]] }, st.arena.length)

/-- Pad the top-level results array with holes up to length `n`. -/
def padTo (l : List (Option Nat)) (n : Nat) : List (Option Nat) :=
  l ++ List.replicate (n - l.length) none

/-- Lines 143 / 185 of part_000: `results[i] = results[i] || {}` — reuse the
record at position `i` of the top-level array, creating it if absent. -/
def MState.getOrCreateTop (st : MState) (i : Nat) : MState × Nat :=
  match (st.results.get? i).bind id with
  | some r => (st, r)
  | none =>
    let (st', r) := st.alloc
    ({ st' with results := (padTo st'.results (i + 1)).set i (some r) }, r)

/-- The scalar values extracted by the childless branch
(lines 152-179 of part_000), evaluated against the task's element. -/
def leafValues {E : Type} (d : Driver E) (elem : E) (attrName : String)
    (regex selector xpath : Option String) : List String :=
  if truthy selector then
    (d.querySel elem (selector.getD "")).map (fun e => d.attr e attrName)
  else if truthy xpath then
    (d.queryXp elem (xpath.getD "")).map (fun e => d.attr e attrName)
  else if truthy regex then
    d.rmatch (regex.getD "") (d.content elem)
  else []

/-- Body of `values.forEach((value, i) => ...)` (lines 181-193 of part_000)
for a single value at position `i`: pick the target record (the task's
parent slot, or `results[i]`), then assign through the collision coercion. -/
def assignValueStep (result : Option Nat) (key : String) (st : MState)
    (iv : Nat × String) : MState :=
  let (st, refIdx) :=
    match result with
    | some r => (st, r)
    | none => st.getOrCreateTop iv.1
  st.setRec refIdx (assignKey (st.recAt refIdx) key (.str iv.2))

/-- Body of `elems.forEach((elem, i) => ...)` (lines 139-151 of part_000)
for a single matched element at position `i`: pick the target record, attach
a fresh nested record at `key` (overwriting whatever was there), and append
one child task per child entry, carrying the matched element. -/
def childElemStep {E : Type} (result : Option Nat) (key : String)
    (children : List (String × SpecVal)) (acc : MState × List (WTask E))
    (ie : Nat × E) : MState × List (WTask E) :=
  let (st, appended) := acc
  let (st, refIdx) :=
    match result with
    | some r => (st, r)
    | none => st.getOrCreateTop ie.1
  let (st, newIdx) := st.alloc
  let st := st.setRec refIdx (setKey (st.recAt refIdx) key (.obj newIdx))
  let newTasks := children.map fun kv => WTask.mk ie.2 kv.1 (some newIdx) kv.2
  (st, appended ++ newTasks)

/-- Processing of one worklist entry (the body of the `while` loop, lines
117-194 of part_000).  Returns the updated state and the tasks appended to
the queue.  Note that the children branch queries `page` — the root page —
while the childless branch queries `t.elem`, exactly as the source does
(`page[method](arg)` at line 137 versus `elem.$$eval` / `elem.$x` at lines
156-160). -/
def processTask {E : Type} (d : Driver E) (page : E) (st : MState)
    (t : WTask E) : MState × List (WTask E) :=
  let (attrName, children, regex, selector, xpath) := specFields t.value
  let childEntries := children.toList
  if childEntries.length ≠ 0 then
    let elems :=
      if truthy selector then d.querySel page (selector.getD "")
      else d.queryXp page ((jsOrOpt selector xpath).getD "")
    elems.enum.foldl (childElemStep t.result t.key childEntries) (st, [])
  else
    let values := leafValues d t.elem attrName regex selector xpath
    (values.enum.foldl (assignValueStep t.result t.key) st, [])

/-- Process one generation of the worklist in order, collecting the appended
tasks.  Because the JS queue is strictly FIFO (`entries.shift()` at the
front, `entries.push(...)` at the back), processing it is the same sequence
of task executions as processing generation after generation: the tasks
appended while generation `k` runs are exactly generation `k+1`, in order. -/
def processGen {E : Type} (d : Driver E) (page : E)
    (st : MState) (gen : List (WTask E)) : MState × List (WTask E) :=
  gen.foldl
    (fun acc t =>
      ((processTask d page acc.1 t).1, acc.2 ++ (processTask d page acc.1 t).2))
    (st, [])

/-- Run the worklist generation by generation.  `fuel` bounds the number of
generations; `matchModel` passes the spec height, which suffices because
every appended task carries a strictly shallower spec. -/
def runGens {E : Type} (d : Driver E) (page : E) :
    Nat → MState → List (WTask E) → MState
  | 0, st, _ => st
  | _ + 1, st, [] => st
  | fuel + 1, st, t :: ts =>
    let (st', next) := processGen d page st (t :: ts)
    runGens d page fuel st' next

/-- The top-level seeding of the worklist (lines 102-104 of part_000):
`Object.entries(step.data).map(([key, value]) => ({elem: page, key,
result: null, value}))`. -/
def initTasks {E : Type} (page : E) (data : List (String × SpecVal)) :
    List (WTask E) :=
  data.map fun kv => WTask.mk page kv.1 none kv.2

def tasksDepth {E : Type} (ts : List (WTask E)) : Nat :=
  (ts.map fun t => t.value.depth).foldr max 0

/-- The extraction engine `match` (part_000, lines 101-204).  `step.data`
with no entries makes `entries.shift()` return `undefined`, and the
destructuring `let { elem, key, result, value } = entries.shift()` at line
115 throws a `TypeError`; this is the `.error` case.  Otherwise the FIFO
loop runs to completion (every appended task carries a strictly smaller
spec, so `tasksDepth` generations suffice — see `runGens_stable`). -/
def matchModel {E : Type} (d : Driver E) (page : E)
    (data : List (String × SpecVal)) : Except String MState :=
  match initTasks page data with
  | [] => .error "TypeError: cannot destructure property of undefined"
  | t :: ts => .ok (runGens d page (tasksDepth (t :: ts)) MState.init (t :: ts))

/-! ### Resolved result values

The JS `match` returns the `results` array of live objects; the arena
encoding is flattened back into trees for readable statements. -/

/-- A fully resolved result value: arena references replaced by the records
they point to. -/
inductive RVal where
  | str (s : String)
  | arr (vs : List RVal)
  | obj (fields : List (String × RVal))

/-- Resolve a `JVal` through the arena.  References always point to records
allocated later than the referring record was last written, so
`arena.length` steps of fuel are enough for every value the loop builds. -/
def derefVal (arena : List Record) : Nat → JVal → RVal
  | 0, _ => .str ""
  | _ + 1, .str s => .str s
  | fuel + 1, .arr vs => .arr (vs.map (derefVal arena fuel))
  | fuel + 1, .obj r =>
    .obj (((arena.get? r).getD []).map fun kv => (kv.1, derefVal arena fuel kv.2))

def derefRec (arena : List Record) (r : Record) : List (String × RVal) :=
  r.map fun kv => (kv.1, derefVal arena arena.length kv.2)

/-- The final value of the JS `results` array, as trees (`none` = hole). -/
def MState.out (st : MState) : List (Option (List (String × RVal))) :=
  st.results.map fun o => o.map fun r => derefRec st.arena (st.recAt r)

/-- `matchModel` with the results flattened to trees. -/
def matchOut {E : Type} (d : Driver E) (page : E)
    (data : List (String × SpecVal)) :
    Except String (List (Option (List (String × RVal)))) :=
  (matchModel d page data).map MState.out

/-! ### The page pool (part_000, lines 369-401)

`main` keeps `pages` (created page handles, each with an `available` flag),
`queue` (pending `getPage` resolvers, FIFO) and `numPages`.  Handles are
modelled by their creation index; waiters by caller-chosen tokens.  The
model's transitions are the synchronous sections of `getPage` and
`releasePage`: under the single-threaded cooperative runtime those sections
run without interleaving, and `++numPages` in particular executes before the
`await browser.newPage()` suspension, so the creation guard is atomic. -/

structure PoolState where
  pages : List Bool
  queue : List Nat
  numPages : Nat
deriving DecidableEq

def PoolState.start : PoolState := ⟨[], [], 0⟩

/-- What one `getPage` call did. -/
inductive GetOutcome where
  | reuse (idx : Nat)
  | create (idx : Nat)
  | queued (w : Nat)
deriving DecidableEq

/-- `pages.find(page => page.available)` — index of the first available
handle, in creation order. -/
def findAvail (pages : List Bool) : Option Nat :=
  (pages.enum.find? fun ib => ib.2).map fun ib => ib.1

/-- `browser.getPage` (lines 375-391) for caller token `w`: reuse the first
available handle, else create one while `numPages < maxPages` (incrementing
the counter before the creation suspension), else park `w` at the back of
the queue.  `page.available = false` at line 388 runs in the first two
outcomes; for a queued caller it runs when a release resumes it (folded into
`releasePage`'s handoff below). -/
def getPage (maxPages : Nat) (st : PoolState) (w : Nat) :
    PoolState × GetOutcome :=
  match findAvail st.pages with
  | some idx => ({ st with pages := st.pages.set idx false }, .reuse idx)
  | none =>
    if st.numPages < maxPages then
      ({ st with pages := st.pages ++ [false], numPages := st.numPages + 1 },
        .create st.pages.length)
    else
      ({ st with queue := st.queue ++ [w] }, .queued w)

/-- What one `releasePage` call did. -/
inductive RelOutcome where
  | handoff (w : Nat)
  | marked
deriving DecidableEq

/-- `browser.releasePage` (lines 393-401): `queue.shift()`; if a waiter was
pending, resolve it with the handle (the resumed `getPage` then runs
`page.available = false`, so the flag is never set true); otherwise mark the
handle available. -/
def releasePage (st : PoolState) (p : Nat) : PoolState × RelOutcome :=
  match st.queue with
  | w :: rest => ({ st with queue := rest, pages := st.pages.set p false }, .handoff w)
  | [] => ({ st with pages := st.pages.set p true }, .marked)

/-- An interleaving of pool calls: each `getPage` (with a caller token) or
`releasePage` (with a handle index). -/
inductive PoolOp where
  | get (w : Nat)
  | rel (p : Nat)
deriving DecidableEq

def applyOp (maxPages : Nat) (st : PoolState) : PoolOp → PoolState
  | .get w => (getPage maxPages st w).1
  | .rel p => (releasePage st p).1

/-- Pool state after a sequence of calls starting from `main`'s empty pool. -/
def runOps (maxPages : Nat) (ops : List PoolOp) : PoolState :=
  ops.foldl (applyOp maxPages) PoolState.start

/-- The pool's shape invariant: `numPages` counts the created handles, and
never exceeds the bound. -/
def PoolInv (m : Nat) (st : PoolState) : Prop :=
  st.pages.length = st.numPages ∧ st.numPages ≤ m

def PoolOp.isRel : PoolOp → Bool
  | .rel _ => true
  | .get _ => false

/-! ### The `repeat` step (part_000, lines 291-301) -/

/-- `replaceIndex` (line 41): `str.replace(/\$i/g, i)` — replace every
(non-overlapping, left-to-right) occurrence of the token `$i` in an output
path with the decimal iteration index. -/
def replaceDollarI (i : Nat) : List Char → List Char
  | [] => []
  | '$' :: 'i' :: rest => (toString i).data ++ replaceDollarI i rest
  | c :: rest => c :: replaceDollarI i rest

def replaceIndex (str : String) (i : Nat) : String :=
  ⟨replaceDollarI i str.data⟩

/-- `Math.abs(step.times) || 10`: absolute value, with `0` (and an omitted
`times`, whose `Math.abs` is the falsy `NaN`) falling back to 10. -/
def repeatIters (times : Option Int) : Nat :=
  match times with
  | none => 10
  | some t => if t.natAbs = 0 then 10 else t.natAbs

mutual

/-- A step tree, as far as execution order is concerned: leaf steps are
tagged opaque actions, `rep` is the interpreter's `repeat` case.  The
sub-step sequence is a mutually inductive list so that the trace function
below is structurally recursive. -/
inductive RStep where
  | leaf (tag : Nat)
  | rep (times : Option Int) (subSteps : RSteps)

inductive RSteps where
  | nil
  | cons (s : RStep) (rest : RSteps)

end

mutual

/-- Execution trace of `handleStep` restricted to leaf events `(tag, i)`:
the `repeat` case runs `for (j = 1; j <= iters; j++) for (subStep of
step.subSteps) handleStep(..., i * iters + j)`. -/
def execTrace : RStep → Nat → List (Nat × Nat)
  | .leaf tag, i => [(tag, i)]
  | .rep times subs, i =>
    (List.range (repeatIters times)).flatMap fun j0 =>
      execSubs subs (i * repeatIters times + (j0 + 1))

/-- Trace of a sub-step sequence executed in declared order at index `i`. -/
def execSubs : RSteps → Nat → List (Nat × Nat)
  | .nil, _ => []
  | .cons s rest, i => execTrace s i ++ execSubs rest i

end

/-! ### The `crawl` step (part_000, lines 241-265)

Per discovered link the interpreter runs, inside one async closure:
acquire a page, `try { goto(link); for (subStep of subSteps) handleStep }
catch (err) { console.error(err) }`, then `browser.releasePage(page)`.
Outcomes of the navigation and of each sub-step are supplied by an
environment; an `Except.error` models a throw. -/

/-- Observable events of one crawl branch. -/
inductive CEvent where
  | acquire
  | navigated (link : String)
  | ranSub (link : String) (idx : Nat)
  | logged (err : String)
  | released
deriving DecidableEq

/-- Outcomes the browser produces for one crawl: `nav link` is `page.goto
(link)`, `sub link idx` is the execution of sub-step number `idx` on the
page navigated to `link`. -/
structure CrawlEnv where
  nav : String → Except String Unit
  sub : String → Nat → Except String Unit

/-- The `try` block body: navigate, then the sub-steps in order; the first
throw aborts the remaining sub-steps of this link. -/
def tryBody (env : CrawlEnv) (link : String) :
    List Nat → List CEvent × Except String Unit
  | [] => ([], .ok ())
  | idx :: rest =>
    match env.sub link idx with
    | .error e => ([.ranSub link idx], .error e)
    | .ok _ =>
      let (evs, r) := tryBody env link rest
      (.ranSub link idx :: evs, r)

def tryBlock (env : CrawlEnv) (link : String) (subs : List Nat) :
    List CEvent × Except String Unit :=
  match env.nav link with
  | .error e => ([], .error e)
  | .ok _ =>
    let (evs, r) := tryBody env link subs
    (.navigated link :: evs, r)

/-- One crawl branch (lines 247-261): the `catch` turns any throw into a
log event, and `releasePage` runs after the `try`/`catch` in every case, so
the branch's promise always resolves. -/
def crawlBranch (env : CrawlEnv) (subs : List Nat) (link : String) :
    List CEvent × Except String Unit :=
  let (evs, r) := tryBlock env link subs
  let evs :=
    match r with
    | .error e => .acquire :: (evs ++ [.logged e])
    | .ok _ => .acquire :: evs
  (evs ++ [.released], .ok ())

/-- The parent `crawl` step over the discovered links: one branch per link
(`links.map(async (link, j) => ...)`, awaited with `Promise.all`). -/
def crawlStep (env : CrawlEnv) (subs : List Nat) (links : List String) :
    List (List CEvent) × Except String Unit :=
  (links.map fun l => (crawlBranch env subs l).1, .ok ())

/-! ### The wait dispatch (part_000, lines 49-93) and `main` (lines 343-422)

`wait` computes `method = capitalize(step.for)` (with the `xpath` case
overriding it to `XPath`) and then calls `page["waitFor" + method](...)`.
When the property is not a function of the page, the call throws a
`TypeError` at the moment the wait step executes. -/

/-- `capitalize` (line 40): `str[0].toUpperCase() + str.slice(1)`; on the
empty string `str[0]` is `undefined` and `.toUpperCase()` throws. -/
def capitalizeJS : String → Except String String
  | ⟨[]⟩ => .error "TypeError: cannot read toUpperCase of undefined"
  | ⟨c :: cs⟩ => .ok ⟨c.toUpper :: cs⟩

/-- The wait primitives the puppeteer Page actually has. -/
def pageWaitMethods : List String :=
  ["waitForFunction", "waitForNavigation", "waitForNetworkIdle",
   "waitForRequest", "waitForResponse", "waitForSelector",
   "waitForTimeout", "waitForXPath"]

/-- The name `wait` builds: `capitalize(step.for)`, overridden to `XPath`
in the `case "xpath"` branch. -/
def waitMethodName (f : String) : Except String String :=
  match capitalizeJS f with
  | .error e => .error e
  | .ok cap => .ok ("waitFor" ++ (if f = "xpath" then "XPath" else cap))

/-- Resolving and invoking `page["waitFor" + method]`: a `TypeError` when
the page has no such function. -/
def waitCall (f : String) : Except String String :=
  match waitMethodName f with
  | .error e => .error e
  | .ok m =>
    if m ∈ pageWaitMethods then .ok m
    else .error ("TypeError: page." ++ m ++ " is not a function")

/-- Events of a `main` run, for a config whose steps are wait steps. -/
inductive MEvent where
  | navigate (url : String)
  | waited (method : String)
  | fatal (err : String)
deriving DecidableEq

def execWaits : List String → List MEvent
  | [] => []
  | f :: rest =>
    match waitCall f with
    | .ok m => .waited m :: execWaits rest
    | .error e => [.fatal e]

/-- `main` (lines 411-415): `await page.goto(config.url)` runs first, and
only then are the steps executed in order; a throw inside a step propagates
to `main().catch` and aborts the remaining steps. -/
def mainTrace (url : String) (waitFors : List String) : List MEvent :=
  .navigate url :: execWaits waitFors

/-! ### The `go` step (part_000, lines 267-289)

The case computes the method *name* as a string (`"goBack"`, `"goForward"`
or `"goto"`) and then evaluates `page[method(...args)]` — note the
parentheses: the *string* `method` is called as a function, which throws
`TypeError: method is not a function` before any page member is touched. -/

/-- A JS value at the call site: the local `method` holds a string. -/
inductive JsCallee where
  | strVal (s : String)
  | fnVal (f : List String → Except String String)

/-- JS function call `callee(...args)`: only functions are callable. -/
def jsCall (callee : JsCallee) (args : List String) : Except String String :=
  match callee with
  | .strVal _ => .error "TypeError: method is not a function"
  | .fnVal f => f args

/-- Lines 271-284: the switch that builds the method name and argument
list. -/
def goMethodName (whereArg : String) : String × List String :=
  match whereArg with
  | "back" => ("goBack", [])
  | "forward" => ("goForward", [])
  | _ => ("goto", [whereArg])

/-- The navigations a `go` step performs, alongside its result: the code
evaluates `page[method(...args)]`, so `jsCall` on the string `method` runs
(and throws) before the page is ever indexed; no navigation happens. -/
def goStep (whereArg : String) : List String × Except String String :=
  let (method, args) := goMethodName whereArg
  match jsCall (.strVal method) args with
  | .error e => ([], .error e)
  | .ok idx => ([method] , .ok idx)

/-- The navigation the `go` case was documented to perform (jsdoc line 36:
"navigate 'back', 'forward', or to a URL"), i.e. `page[method](...args)`:
one invocation of the named driver method. -/
def goStepIntended (whereArg : String) : List String :=
  [(goMethodName whereArg).1]

/-- The `scrape` step (lines 303-312): run the extraction engine, then
write one file.  The returned list holds the paths written; a throw inside
`match` reaches the caller before any file is created. -/
def scrapeWrites {E : Type} (d : Driver E) (page : E)
    (data : List (String × SpecVal)) (path : String) :
    Except String (List String) :=
  (matchModel d page data).map fun _ => [path]

/-! ### Derived views used by the extraction lemmas -/

/-- Named projections of `specFields`. -/
def specAttr (v : SpecVal) : String := (specFields v).1

def specKids (v : SpecVal) : SpecChildren := (specFields v).2.1

def specRegex (v : SpecVal) : Option String := (specFields v).2.2.1

def specSel (v : SpecVal) : Option String := (specFields v).2.2.2.1

def specXp (v : SpecVal) : Option String := (specFields v).2.2.2.2

/-- The scalar values one childless spec entry extracts against `elem`:
its match count is the number of matched elements (selector/xpath) or of
regex matches. -/
def entryValues {E : Type} (d : Driver E) (elem : E) (v : SpecVal) :
    List String :=
  leafValues d elem (specAttr v) (specRegex v) (specSel v) (specXp v)

/-- States whose top-level `results` array references the arena records in
order: `results[j]` is record `j`.  `match` keeps all its states in this
shape while only top-level (childless) entries run. -/
def Canon (st : MState) : Prop :=
  st.results = (List.range st.arena.length).map some

/-- The record a leaf task with a parent result slot builds: all its values
land in the one parent record under its key, through the collision
coercion. -/
def leafRecord (k : String) (vals : List String) : Record :=
  vals.foldl (fun r v => assignKey r k (.str v)) []

/-- `leafRecord` after resolution: no key for no values, a scalar for one,
an array for several. -/
def leafOutR (k : String) (vals : List String) : List (String × RVal) :=
  match vals with
  | [] => []
  | [v] => [(k, .str v)]
  | v :: vs => [(k, .arr (.str v :: vs.map .str))]

/-- A two-level nested spec:
`{k1: {selector: s1, children: {k2: {selector: s2, children: {k3: s3}}}}}`. -/
def nestedNode (k2 k3 s1 s2 s3 : String) : SpecVal :=
  .node none
    (.cons k2
      (.node none (.cons k3 (.strSel s3) .nil) none (some s2) none) .nil)
    none (some s1) none

/-- Concrete driver (elements are numbers, the page is 0): selector "one"
matches one element on the page and selector "p" two; every attribute read
returns the element's number. -/
def twoCountDriver : Driver Nat where
  querySel := fun e s =>
    if e = 0 ∧ s = "one" then [7]
    else if e = 0 ∧ s = "p" then [8, 9]
    else []
  queryXp := fun _ _ => []
  attr := fun e _ => toString e
  content := fun _ => ""
  rmatch := fun _ _ => []

/-- Concrete driver distinguishing page-rooted from element-rooted queries:
"s1" matches [1] under the page (0); "s2" matches [2] under the page but
[3] under element 1; "s3" leads from 2 to the attribute "viaPage" and from
3 to "viaElem". -/
def pageRootDriver : Driver Nat where
  querySel := fun e s =>
    if e = 0 ∧ s = "s1" then [1]
    else if e = 0 ∧ s = "s2" then [2]
    else if e = 1 ∧ s = "s2" then [3]
    else if e = 2 ∧ s = "s3" then [4]
    else if e = 3 ∧ s = "s3" then [5]
    else []
  queryXp := fun _ _ => []
  attr := fun e _ =>
    if e = 4 then "viaPage" else if e = 5 then "viaElem" else "other"
  content := fun _ => ""
  rmatch := fun _ _ => []

/-- Concrete driver with two parent matches for "s1", one page-level match
for "s2" and one leaf element for "s3". -/
def pagePairDriver : Driver Nat where
  querySel := fun e s =>
    if e = 0 ∧ s = "s1" then [1, 2]
    else if e = 0 ∧ s = "s2" then [3]
    else if e = 3 ∧ s = "s3" then [4]
    else []
  queryXp := fun _ _ => []
  attr := fun e _ => toString e
  content := fun _ => ""
  rmatch := fun _ _ => []

/-! ## Helper lemmas about records -/

theorem getKey_setKey_self (r : Record) (k : String) (v : JVal) :
    getKey (setKey r k v) k = some v := by
  induction r with
  | nil => simp [setKey, getKey]
  | cons kv r ih =>
    by_cases h : kv.1 = k <;> simp [setKey, getKey, h, ih]

theorem getKey_setKey_ne (r : Record) (k k' : String) (v : JVal)
    (h : k' ≠ k) : getKey (setKey r k v) k' = getKey r k' := by
  induction r with
  | nil => simp [setKey, getKey, h, Ne.symm h]
  | cons kv r ih =>
    obtain ⟨k₀, v₀⟩ := kv
    by_cases hk : k₀ = k
    · subst hk
      simp [setKey, getKey, h, Ne.symm h]
    · by_cases hk' : k₀ = k' <;> simp [setKey, getKey, hk, hk', ih, h]

theorem getKey_assignKey_ne (r : Record) (k k' : String) (v : JVal)
    (h : k' ≠ k) : getKey (assignKey r k v) k' = getKey r k' := by
  unfold assignKey
  cases getKey r k <;> simp [getKey_setKey_ne _ _ _ _ h]

theorem getKey_assignKey_none (r : Record) (k : String) (v : JVal)
    (h : getKey r k = none) : getKey (assignKey r k v) k = some v := by
  simp [assignKey, h, getKey_setKey_self]

theorem getKey_assignKey_some (r : Record) (k : String) (v old : JVal)
    (h : getKey r k = some old) :
    getKey (assignKey r k v) k = some (.arr (jsToArr old ++ jsToArr v)) := by
  simp [assignKey, h, getKey_setKey_self]

/-! ## Helper lemmas: the extraction worklist

These characterize the body of the `match` loop: one value assignment, one
leaf pass at the top level, one generation of the worklist, and the full
run for a spec whose top-level entries are childless.  The fuel lemmas at
the end show every appended task carries a strictly shallower spec, so the
`tasksDepth` generations used by `matchModel` process the whole queue:
more fuel never changes the result. -/

theorem MState.arena_setRec (st : MState) (i : Nat) (r : Record) :
    (st.setRec i r).arena.length = st.arena.length := by
  simp [MState.setRec]

theorem MState.results_setRec (st : MState) (i : Nat) (r : Record) :
    (st.setRec i r).results = st.results := rfl

theorem MState.recAt_setRec_self (st : MState) (i : Nat) (r : Record)
    (h : i < st.arena.length) : (st.setRec i r).recAt i = r := by
  simp [MState.setRec, MState.recAt, List.getElem?_set_self h]

theorem MState.recAt_setRec_ne (st : MState) (i j : Nat) (r : Record)
    (h : j ≠ i) : (st.setRec i r).recAt j = st.recAt j := by
  simp [MState.setRec, MState.recAt, List.getElem?_set_ne (Ne.symm h)]

theorem MState.setRec_recAt_self (st : MState) (i : Nat)
    (h : i < st.arena.length) : st.setRec i (st.recAt i) = st := by
  obtain ⟨arena, results⟩ := st
  simp only [MState.setRec, MState.recAt, MState.mk.injEq, and_true]
  apply List.ext_getElem?
  intro n
  by_cases hn : n = i
  · subst hn
    simp only [List.getElem?_set_self h]
    cases hv : arena[n]? with
    | none => exact absurd (List.getElem?_eq_none_iff.mp hv) (by simpa using Nat.not_le.mpr h)
    | some r => simp [hv]
  · simp [List.getElem?_set_ne (Ne.symm hn)]

theorem MState.setRec_setRec (st : MState) (i : Nat) (r r' : Record) :
    (st.setRec i r).setRec i r' = st.setRec i r' := by
  simp [MState.setRec, List.set_set]

-- assignValueStep with a parent slot folds into one record
theorem foldl_assign_some (k : String) (vals : List String) (p : Nat)
    (refIdx : Nat) (st : MState) (h : refIdx < st.arena.length) :
    (vals.enumFrom p).foldl (assignValueStep (some refIdx) k) st =
      st.setRec refIdx
        (vals.foldl (fun r v => assignKey r k (.str v)) (st.recAt refIdx)) := by
  induction vals generalizing p st with
  | nil => simpa [List.enumFrom] using (MState.setRec_recAt_self st refIdx h).symm
  | cons v rest ih =>
    have hstep : assignValueStep (some refIdx) k st (p, v) =
        st.setRec refIdx (assignKey (st.recAt refIdx) k (.str v)) := rfl
    have harena : refIdx <
        (st.setRec refIdx (assignKey (st.recAt refIdx) k (.str v))).arena.length := by
      simpa [MState.arena_setRec] using h
    calc (((v :: rest).enumFrom p)).foldl (assignValueStep (some refIdx) k) st
        = (rest.enumFrom (p + 1)).foldl (assignValueStep (some refIdx) k)
            (st.setRec refIdx (assignKey (st.recAt refIdx) k (.str v))) := by
          simp [List.enumFrom, hstep]
      _ = st.setRec refIdx
            (rest.foldl (fun r v => assignKey r k (.str v))
              (assignKey (st.recAt refIdx) k (.str v))) := by
          rw [ih (p + 1) _ harena, MState.recAt_setRec_self _ _ _ h,
            MState.setRec_setRec]
      _ = _ := by simp

theorem MState.recAt_out (st : MState) (j : Nat)
    (h : st.arena.length ≤ j) : st.recAt j = [] := by
  simp [MState.recAt, List.getElem?_eq_none h]

theorem getOrCreateTop_canon_lt (st : MState) (p : Nat) (hc : Canon st)
    (hp : p < st.arena.length) : st.getOrCreateTop p = (st, p) := by
  unfold MState.getOrCreateTop
  rw [hc]
  simp [List.getElem?_range hp]

theorem set_concat_last {α : Type} (l : List α) (a b : α) :
    (l ++ [a]).set l.length b = l ++ [b] := by
  apply List.ext_getElem?
  intro n
  rcases Nat.lt_trichotomy n l.length with h | h | h
  · rw [List.getElem?_set_ne (by omega), List.getElem?_append_left h,
      List.getElem?_append_left h]
  · subst h
    rw [List.getElem?_set_self (by simp), List.getElem?_concat_length]
  · rw [List.getElem?_set_ne (by omega)]
    have h1 : (l ++ [a])[n]? = none := List.getElem?_eq_none (by simp; omega)
    have h2 : (l ++ [b])[n]? = none := List.getElem?_eq_none (by simp; omega)
    rw [h1, h2]

theorem getOrCreateTop_canon_eq (st : MState) (hc : Canon st) :
    st.getOrCreateTop st.arena.length =
      (⟨st.arena ++ [[]], (List.range (st.arena.length + 1)).map some⟩,
        st.arena.length) := by
  have hnone : (st.results.get? st.arena.length).bind id = none := by
    rw [hc]
    have hr : (List.range st.arena.length)[st.arena.length]? = none :=
      List.getElem?_eq_none (by simp)
    simp [List.get?_eq_getElem?, hr]
  unfold MState.getOrCreateTop
  rw [hnone]
  simp only [MState.alloc, padTo]
  have hres : ((st.results ++
      List.replicate (st.arena.length + 1 - st.results.length) none).set
        st.arena.length (some st.arena.length)) =
      (List.range (st.arena.length + 1)).map some := by
    rw [hc]
    have hlen : ((List.range st.arena.length).map some).length =
        st.arena.length := by simp
    have hrep : st.arena.length + 1 -
        ((List.range st.arena.length).map some).length = 1 := by omega
    rw [hrep]
    have := set_concat_last ((List.range st.arena.length).map some)
      (none : Option Nat) (some st.arena.length)
    rw [hlen] at this
    rw [show (List.replicate 1 (none : Option Nat)) = [none] from rfl, this,
      List.range_succ]
    simp
  exact Prod.ext (by simp [hres]) rfl

theorem assign_none_step (k v : String) (p : Nat) (st : MState)
    (hc : Canon st) (hp : p ≤ st.arena.length) :
    Canon (assignValueStep none k st (p, v)) ∧
    (assignValueStep none k st (p, v)).arena.length =
      max st.arena.length (p + 1) ∧
    (assignValueStep none k st (p, v)).recAt p =
      assignKey (st.recAt p) k (.str v) ∧
    (∀ j, j ≠ p → (assignValueStep none k st (p, v)).recAt j = st.recAt j) := by
  rcases Nat.lt_or_ge p st.arena.length with hlt | hge
  · have hg := getOrCreateTop_canon_lt st p hc hlt
    have hstep : assignValueStep none k st (p, v) =
        st.setRec p (assignKey (st.recAt p) k (.str v)) := by
      simp [assignValueStep, hg]
    refine ⟨?_, ?_, ?_, ?_⟩
    · simpa [Canon, hstep, MState.arena_setRec, MState.results_setRec] using hc
    · rw [hstep, MState.arena_setRec]; omega
    · rw [hstep, MState.recAt_setRec_self _ _ _ hlt]
    · intro j hj
      rw [hstep, MState.recAt_setRec_ne _ _ _ _ hj]
  · have hpe : p = st.arena.length := by omega
    subst hpe
    have hg := getOrCreateTop_canon_eq st hc
    set stm : MState :=
      ⟨st.arena ++ [[]], (List.range (st.arena.length + 1)).map some⟩ with hstm
    have hmidrec : stm.recAt st.arena.length = [] := by
      simp [hstm, MState.recAt, List.getElem?_concat_length]
    have hstep : assignValueStep none k st (st.arena.length, v) =
        stm.setRec st.arena.length
          (assignKey [] k (.str v)) := by
      simp [assignValueStep, hg, hmidrec]
    have hmlen : stm.arena.length = st.arena.length + 1 := by simp [hstm]
    have hlt' : st.arena.length < stm.arena.length := by omega
    refine ⟨?_, ?_, ?_, ?_⟩
    · simp [Canon, hstep, MState.arena_setRec, MState.results_setRec, hmlen,
        hstm, MState.setRec]
    · rw [hstep, MState.arena_setRec, hmlen]; omega
    · rw [hstep, MState.recAt_setRec_self _ _ _ hlt',
        MState.recAt_out st _ (le_refl _)]
    · intro j hj
      rw [hstep, MState.recAt_setRec_ne _ _ _ _ hj]
      rcases Nat.lt_or_ge j st.arena.length with hjlt | hjge
      · simp [hstm, MState.recAt, List.getElem?_append_left hjlt]
      · have hjgt : st.arena.length < j := by omega
        rw [MState.recAt_out st _ (by omega)]
        have : stm.arena[j]? = none := List.getElem?_eq_none (by rw [hmlen]; omega)
        simp [MState.recAt, this]

theorem leaf_pass_none (k : String) (vals : List String) (p : Nat)
    (st : MState) (hc : Canon st) (hp : p ≤ st.arena.length) :
    Canon ((vals.enumFrom p).foldl (assignValueStep none k) st) ∧
    ((vals.enumFrom p).foldl (assignValueStep none k) st).arena.length =
      max st.arena.length (p + vals.length) ∧
    (∀ j, j < p ∨ p + vals.length ≤ j →
      ((vals.enumFrom p).foldl (assignValueStep none k) st).recAt j =
        st.recAt j) ∧
    (∀ j val, p ≤ j → vals.get? (j - p) = some val →
      ((vals.enumFrom p).foldl (assignValueStep none k) st).recAt j =
        assignKey (st.recAt j) k (.str val)) := by
  induction vals generalizing p st with
  | nil =>
    refine ⟨hc, by simpa [List.enumFrom] using (by omega), ?_, ?_⟩
    · intro j hj; simp [List.enumFrom]
    · intro j val hpj hval; simp at hval
  | cons v rest ih =>
    obtain ⟨hc₁, hlen₁, hrec₁, hne₁⟩ := assign_none_step k v p st hc hp
    set st₁ := assignValueStep none k st (p, v) with hst₁
    have hp₁ : p + 1 ≤ st₁.arena.length := by omega
    obtain ⟨hc', hlen', huntouched', hat'⟩ := ih (p + 1) st₁ hc₁ hp₁
    have hfold : ((v :: rest).enumFrom p).foldl (assignValueStep none k) st =
        (rest.enumFrom (p + 1)).foldl (assignValueStep none k) st₁ := by
      simp [List.enumFrom, hst₁]
    refine ⟨by rwa [hfold], ?_, ?_, ?_⟩
    · rw [hfold, hlen', hlen₁]
      simp only [List.length_cons]
      omega
    · intro j hj
      have hlc : (v :: rest).length = rest.length + 1 := by simp
      have hj' : j < p + 1 ∨ p + 1 + rest.length ≤ j := by
        rcases hj with h | h
        · left; omega
        · right; omega
      have hjne : j ≠ p := by
        rcases hj with h | h
        · omega
        · omega
      rw [hfold, huntouched' j hj', hne₁ j hjne]
    · intro j val hpj hval
      rcases Nat.eq_or_lt_of_le hpj with hje | hjgt
      · have hz : j - p = 0 := by omega
        rw [hz] at hval
        have hv : val = v := by
          simpa using hval.symm
        rw [hfold, ← hje, huntouched' p (by left; omega), hrec₁, hv]
      · have hsub : rest.get? (j - (p + 1)) = some val := by
          have h1 : j - p = (j - (p + 1)) + 1 := by omega
          rw [h1] at hval
          simpa using hval
        rw [hfold, hat' j val (by omega) hsub, hne₁ j (by omega)]

theorem processTask_childless {E : Type} (d : Driver E) (page : E)
    (st : MState) (t : WTask E) (h : specKids t.value = SpecChildren.nil) :
    processTask d page st t =
      ((entryValues d t.elem t.value).enum.foldl
        (assignValueStep t.result t.key) st, []) := by
  unfold processTask entryValues specAttr specRegex specSel specXp
  unfold specKids at h
  rcases hsf : specFields t.value with ⟨a, c, r, sel, xp⟩
  rw [hsf] at h
  simp only at h
  subst h
  simp [SpecChildren.toList]

theorem processGen_acc {E : Type} (d : Driver E) (page : E)
    (ts : List (WTask E)) (st : MState) (acc : List (WTask E)) :
    ts.foldl
      (fun a t =>
        ((processTask d page a.1 t).1, a.2 ++ (processTask d page a.1 t).2))
      (st, acc) =
      ((processGen d page st ts).1, acc ++ (processGen d page st ts).2) := by
  induction ts generalizing st acc with
  | nil => simp [processGen]
  | cons t rest ih =>
    simp only [processGen, List.foldl_cons, List.nil_append]
    rw [ih, ih ((processTask d page st t).1) ((processTask d page st t).2)]
    simp [processGen]

theorem processGen_cons {E : Type} (d : Driver E) (page : E)
    (t : WTask E) (ts : List (WTask E)) (st : MState) :
    processGen d page st (t :: ts) =
      ((processGen d page (processTask d page st t).1 ts).1,
        (processTask d page st t).2 ++
          (processGen d page (processTask d page st t).1 ts).2) := by
  simp only [processGen, List.foldl_cons]
  exact processGen_acc d page ts _ _

theorem processGen_childless {E : Type} (d : Driver E) (page : E)
    (ts : List (WTask E)) (st : MState)
    (h : ∀ t ∈ ts, specKids t.value = SpecChildren.nil) :
    processGen d page st ts =
      (ts.foldl
        (fun st t => (entryValues d t.elem t.value).enum.foldl
          (assignValueStep t.result t.key) st) st, []) := by
  induction ts generalizing st with
  | nil => simp [processGen]
  | cons t rest ih =>
    rw [processGen_cons, processTask_childless d page st t (h t (by simp)),
      ih _ (fun t' ht' => h t' (List.mem_cons_of_mem t ht'))]
    simp

theorem depth_eq_one_of_childless (v : SpecVal)
    (h : specKids v = SpecChildren.nil) : SpecVal.depth v = 1 := by
  cases v with
  | strSel s => rfl
  | node a c r sel x =>
    unfold specKids specFields at h
    simp only at h
    subst h
    rfl

theorem foldr_max_ones (l : List Nat) (h : ∀ x ∈ l, x = 1) (hne : l ≠ []) :
    l.foldr max 0 = 1 := by
  induction l with
  | nil => exact absurd rfl hne
  | cons x rest ih =>
    have hx : x = 1 := h x (by simp)
    cases rest with
    | nil => simp [hx]
    | cons y t =>
      have := ih (fun z hz => h z (List.mem_cons_of_mem x hz)) (by simp)
      simp only [List.foldr_cons] at this ⊢
      rw [this, hx]
      simp

theorem matchModel_childless {E : Type} (d : Driver E) (page : E)
    (data : List (String × SpecVal)) (hne : data ≠ [])
    (hcl : ∀ e ∈ data, specKids e.2 = SpecChildren.nil) :
    matchModel d page data =
      .ok (data.foldl
        (fun st e => (entryValues d page e.2).enum.foldl
          (assignValueStep none e.1) st) MState.init) := by
  rcases hdata : data with _ | ⟨e, rest⟩
  · exact absurd hdata hne
  · subst hdata
    have hdepth : tasksDepth (initTasks page (e :: rest)) = 1 := by
      unfold tasksDepth
      apply foldr_max_ones
      · intro x hx
        simp only [initTasks, List.map_map, List.mem_map] at hx
        obtain ⟨e', he', hx⟩ := hx
        rw [← hx]
        exact depth_eq_one_of_childless e'.2 (hcl e' he')
      · simp [initTasks]
    have hclt : ∀ t ∈ initTasks page (e :: rest),
        specKids t.value = SpecChildren.nil := by
      intro t ht
      simp only [initTasks, List.mem_map] at ht
      obtain ⟨e', he', ht⟩ := ht
      rw [← ht]
      exact hcl e' he'
    have hred : matchModel d page (e :: rest) =
        .ok (runGens d page (tasksDepth (initTasks page (e :: rest)))
          MState.init (initTasks page (e :: rest))) := rfl
    rw [hred, hdepth]
    have hts : initTasks page (e :: rest) =
        WTask.mk page e.1 none e.2 :: initTasks page rest := rfl
    rw [hts]
    simp only [runGens]
    rw [← hts, processGen_childless d page _ _ hclt]
    simp only [runGens]
    congr 1
    unfold initTasks
    rw [List.foldl_map]

theorem entriesFold_spec {E : Type} (d : Driver E) (page : E)
    (data : List (String × SpecVal)) (st : MState) (hc : Canon st)
    (hfresh : ∀ e ∈ data, ∀ j, getKey (st.recAt j) e.1 = none)
    (hnd : (data.map Prod.fst).Nodup) :
    Canon (data.foldl
      (fun st e => (entryValues d page e.2).enum.foldl
        (assignValueStep none e.1) st) st) ∧
    (data.foldl
      (fun st e => (entryValues d page e.2).enum.foldl
        (assignValueStep none e.1) st) st).arena.length =
      data.foldl (fun L e => max L (entryValues d page e.2).length)
        st.arena.length ∧
    (∀ k, k ∉ data.map Prod.fst → ∀ j,
      getKey ((data.foldl
        (fun st e => (entryValues d page e.2).enum.foldl
          (assignValueStep none e.1) st) st).recAt j) k =
        getKey (st.recAt j) k) ∧
    (∀ e ∈ data,
      (∀ j val, (entryValues d page e.2).get? j = some val →
        getKey ((data.foldl
          (fun st e => (entryValues d page e.2).enum.foldl
            (assignValueStep none e.1) st) st).recAt j) e.1 =
          some (.str val)) ∧
      (∀ j, (entryValues d page e.2).length ≤ j →
        getKey ((data.foldl
          (fun st e => (entryValues d page e.2).enum.foldl
            (assignValueStep none e.1) st) st).recAt j) e.1 = none)) := by
  induction data generalizing st with
  | nil =>
    exact ⟨hc, rfl, fun k hk j => rfl, fun e he => absurd he (by simp)⟩
  | cons ehd rest ih =>
    obtain ⟨hpass1, hpass2, hpass3, hpass4⟩ :=
      leaf_pass_none ehd.1 (entryValues d page ehd.2) 0 st hc (Nat.zero_le _)
    set n₀ := (entryValues d page ehd.2).length with hn₀
    set st₁ := ((entryValues d page ehd.2).enumFrom 0).foldl
      (assignValueStep none ehd.1) st with hst₁
    have hnd' : (ehd.1 :: rest.map Prod.fst).Nodup := by simpa using hnd
    have hheadnotin : ehd.1 ∉ rest.map Prod.fst := (List.nodup_cons.mp hnd').1
    have hndrest : (rest.map Prod.fst).Nodup := (List.nodup_cons.mp hnd').2
    have hfreshhd : ∀ j, getKey (st.recAt j) ehd.1 = none :=
      hfresh ehd (List.mem_cons_self _ _)
    -- keys other than the head key pass through the head pass unchanged
    have hother : ∀ k, k ≠ ehd.1 → ∀ j,
        getKey (st₁.recAt j) k = getKey (st.recAt j) k := by
      intro k hk j
      rcases Nat.lt_or_ge j n₀ with hjlt | hjge
      · have hval : (entryValues d page ehd.2).get? j =
            some ((entryValues d page ehd.2).get ⟨j, hjlt⟩) :=
          List.get?_eq_get hjlt
        rw [hpass4 j ((entryValues d page ehd.2).get ⟨j, hjlt⟩)
            (Nat.zero_le j) (by rw [Nat.sub_zero]; exact hval),
          getKey_assignKey_ne _ _ _ _ hk]
      · rw [hpass3 j (by omega)]
    -- the head key after the head pass
    have hhead1 : ∀ j val, (entryValues d page ehd.2).get? j = some val →
        getKey (st₁.recAt j) ehd.1 = some (.str val) := by
      intro j val hval
      rw [hpass4 j val (Nat.zero_le j) (by rw [Nat.sub_zero]; exact hval),
        getKey_assignKey_none _ _ _ (hfreshhd j)]
    have hhead2 : ∀ j, n₀ ≤ j → getKey (st₁.recAt j) ehd.1 = none := by
      intro j hj
      rw [hpass3 j (by omega)]
      exact hfreshhd j
    have hfresh₁ : ∀ e ∈ rest, ∀ j, getKey (st₁.recAt j) e.1 = none := by
      intro e he j
      have hk : e.1 ≠ ehd.1 := by
        intro hkeq
        exact hheadnotin (hkeq ▸ List.mem_map_of_mem Prod.fst he)
      rw [hother e.1 hk j]
      exact hfresh e (List.mem_cons_of_mem _ he) j
    obtain ⟨hc', hlen', hkeys', hentries'⟩ := ih st₁ hpass1 hfresh₁ hndrest
    have hfold : (ehd :: rest).foldl
        (fun st e => (entryValues d page e.2).enum.foldl
          (assignValueStep none e.1) st) st =
        rest.foldl
          (fun st e => (entryValues d page e.2).enum.foldl
            (assignValueStep none e.1) st) st₁ := by
      simp only [List.foldl_cons]
      rfl
    refine ⟨by rwa [hfold], ?_, ?_, ?_⟩
    · rw [hfold, hlen', hpass2]
      simp only [List.foldl_cons]
      norm_num
    · intro k hk j
      have hk1 : k ≠ ehd.1 := by
        intro hkeq
        exact hk (by simp [hkeq])
      have hk2 : k ∉ rest.map Prod.fst := by
        intro hmem
        exact hk (by simp [hmem])
      rw [hfold, hkeys' k hk2 j, hother k hk1 j]
    · intro e he
      rcases List.mem_cons.mp he with hehd | herest
      · subst hehd
        constructor
        · intro j val hval
          rw [hfold, hkeys' e.1 hheadnotin j]
          exact hhead1 j val hval
        · intro j hj
          rw [hfold, hkeys' e.1 hheadnotin j]
          exact hhead2 j hj
      · obtain ⟨h1, h2⟩ := hentries' e herest
        exact ⟨fun j val hval => by rw [hfold]; exact h1 j val hval,
          fun j hj => by rw [hfold]; exact h2 j hj⟩

theorem foldl_assignKey_arr (k : String) (vals : List String) (l : List JVal) :
    vals.foldl (fun r v => assignKey r k (.str v)) [(k, .arr l)] =
      [(k, .arr (l ++ vals.map .str))] := by
  induction vals generalizing l with
  | nil => simp
  | cons v vs ih =>
    have hstep : assignKey [(k, JVal.arr l)] k (.str v) =
        [(k, .arr (l ++ [.str v]))] := by
      simp [assignKey, getKey, setKey, jsToArr]
    simp only [List.foldl_cons, hstep, ih]
    simp

theorem leafRecord_eq (k : String) (vals : List String) :
    leafRecord k vals = match vals with
      | [] => []
      | [v] => [(k, .str v)]
      | v :: vs => [(k, .arr (.str v :: vs.map .str))] := by
  cases vals with
  | nil => rfl
  | cons v vs =>
    have hfirst : assignKey [] k (.str v) = [(k, .str v)] := rfl
    cases vs with
    | nil => simp [leafRecord, hfirst]
    | cons v' vs' =>
      have hsecond : assignKey [(k, JVal.str v)] k (.str v') =
          [(k, .arr [.str v, .str v'])] := by
        simp [assignKey, getKey, setKey, jsToArr]
      simp only [leafRecord, List.foldl_cons, hfirst, hsecond,
        foldl_assignKey_arr]
      simp

theorem derefVal_str_map (arena : List Record) (f : Nat) (vs : List String)
    (hf : 1 ≤ f) :
    (vs.map JVal.str).map (derefVal arena f) = vs.map RVal.str := by
  cases f with
  | zero => omega
  | succ f =>
    induction vs with
    | nil => rfl
    | cons v rest ih => simpa [derefVal] using ih

theorem derefRec_leafRecord (arena : List Record) (f : Nat) (k : String)
    (vals : List String) (hf : 2 ≤ f) :
    (leafRecord k vals).map (fun kv => (kv.1, derefVal arena f kv.2)) =
      leafOutR k vals := by
  obtain ⟨f', rfl⟩ : ∃ f', f = f' + 2 := ⟨f - 2, by omega⟩
  rw [leafRecord_eq]
  cases vals with
  | nil => rfl
  | cons v vs =>
    cases vs with
    | nil => rfl
    | cons v' vs' =>
      simp only [leafOutR, List.map_cons, List.map_nil, derefVal]
      rw [derefVal_str_map arena (f' + 1) _ (by omega)]

theorem depth_le_of_mem_children :
    ∀ (c : SpecChildren) (k : String) (v : SpecVal),
      (k, v) ∈ c.toList → SpecVal.depth v ≤ SpecChildren.depth c
  | .nil, k, v, h => by simp [SpecChildren.toList] at h
  | .cons k' v' rest, k, v, h => by
    rcases List.mem_cons.mp h with he | hm
    · injection he with h1 h2
      subst h2
      simp [SpecChildren.depth]
    · exact le_trans (depth_le_of_mem_children rest k v hm)
        (by simp [SpecChildren.depth])

theorem mem_childElemStep {E : Type} (result : Option Nat) (key : String)
    (children : List (String × SpecVal)) (a : MState × List (WTask E))
    (ie : Nat × E) (t' : WTask E)
    (h : t' ∈ (childElemStep result key children a ie).2) :
    t' ∈ a.2 ∨ ∃ kv ∈ children, t'.value = kv.2 := by
  obtain ⟨st, acc⟩ := a
  simp only [childElemStep] at h
  rcases List.mem_append.mp h with h1 | h2
  · exact .inl h1
  · obtain ⟨kv, hkv, ht⟩ := List.mem_map.mp h2
    exact .inr ⟨kv, hkv, by rw [← ht]⟩

theorem mem_childElemStep_foldl {E : Type} (result : Option Nat)
    (key : String) (children : List (String × SpecVal)) :
    ∀ (elems : List (Nat × E)) (a : MState × List (WTask E)) (t' : WTask E),
      t' ∈ (elems.foldl (childElemStep result key children) a).2 →
      t' ∈ a.2 ∨ ∃ kv ∈ children, t'.value = kv.2 := by
  intro elems
  induction elems with
  | nil => exact fun a t' h => .inl h
  | cons ie rest ih =>
    intro a t' h
    simp only [List.foldl_cons] at h
    rcases ih _ _ h with hacc | hfound
    · exact mem_childElemStep result key children a ie t' hacc
    · exact .inr hfound

theorem depth_lt_of_mem_processTask {E : Type} (d : Driver E) (page : E)
    (st : MState) (t t' : WTask E)
    (h : t' ∈ (processTask d page st t).2) :
    SpecVal.depth t'.value < SpecVal.depth t.value := by
  unfold processTask at h
  rcases hsf : specFields t.value with ⟨a, c, r, sel, xp⟩
  rw [hsf] at h
  simp only at h
  by_cases hc : c.toList.length ≠ 0
  · rw [if_pos hc] at h
    rcases mem_childElemStep_foldl _ _ _ _ _ _ h with habs | hfound
    · simp at habs
    · obtain ⟨kv, hmem, hval⟩ := hfound
      have hle : SpecVal.depth kv.2 ≤ SpecChildren.depth c :=
        depth_le_of_mem_children c kv.1 kv.2 hmem
      have hdep : SpecChildren.depth c < SpecVal.depth t.value := by
        cases tv : t.value with
        | strSel s =>
          rw [tv] at hsf
          unfold specFields at hsf
          simp only [Prod.mk.injEq] at hsf
          obtain ⟨-, hc', -⟩ := hsf
          rw [← hc']
          simp [SpecChildren.depth, SpecVal.depth]
        | node a' c' r' s' x' =>
          rw [tv] at hsf
          unfold specFields at hsf
          simp only [Prod.mk.injEq] at hsf
          obtain ⟨-, hc', -⟩ := hsf
          rw [← hc']
          simp [SpecVal.depth]
      rw [hval]
      omega
  · rw [if_neg hc] at h
    simp at h

theorem mem_processGen_next {E : Type} (d : Driver E) (page : E) :
    ∀ (gen : List (WTask E)) (st : MState) (t' : WTask E),
      t' ∈ (processGen d page st gen).2 →
      ∃ t ∈ gen, ∃ stx : MState, t' ∈ (processTask d page stx t).2 := by
  intro gen
  induction gen with
  | nil =>
    intro st t' h
    simp [processGen] at h
  | cons t rest ih =>
    intro st t' h
    rw [processGen_cons] at h
    rcases List.mem_append.mp h with h1 | h2
    · exact ⟨t, List.mem_cons_self _ _, st, h1⟩
    · obtain ⟨tx, htx, hstx⟩ := ih _ _ h2
      exact ⟨tx, List.mem_cons_of_mem _ htx, hstx⟩

theorem runGens_stable {E : Type} (d : Driver E) (page : E) :
    ∀ (n : Nat) (gen : List (WTask E)) (st : MState),
      (∀ t ∈ gen, SpecVal.depth t.value ≤ n) →
      ∀ k, runGens d page (n + k) st gen = runGens d page n st gen := by
  intro n
  induction n with
  | zero =>
    intro gen st hdep k
    cases gen with
    | nil => cases k <;> rfl
    | cons t rest =>
      have h1 := hdep t (List.mem_cons_self _ _)
      have h2 : 1 ≤ SpecVal.depth t.value := by
        cases t.value with
        | strSel s => simp [SpecVal.depth]
        | node a c r sel x => simp [SpecVal.depth]
      omega
  | succ n ih =>
    intro gen st hdep k
    cases gen with
    | nil => cases k <;> rfl
    | cons t rest =>
      have hnext : ∀ t' ∈ (processGen d page st (t :: rest)).2,
          SpecVal.depth t'.value ≤ n := by
        intro t' ht'
        obtain ⟨tx, htx, stx, hmem⟩ := mem_processGen_next d page _ _ _ ht'
        have := depth_lt_of_mem_processTask d page stx tx t' hmem
        have := hdep tx htx
        omega
      have hl : runGens d page (n + 1 + k) st (t :: rest) =
          runGens d page (n + k) (processGen d page st (t :: rest)).1
            (processGen d page st (t :: rest)).2 := by
        have hshift : n + 1 + k = (n + k) + 1 := by omega
        rw [hshift]
        rfl
      have hr : runGens d page (n + 1) st (t :: rest) =
          runGens d page n (processGen d page st (t :: rest)).1
            (processGen d page st (t :: rest)).2 := rfl
      rw [hl, hr, ih _ _ hnext k]

theorem depth_le_tasksDepth {E : Type} (ts : List (WTask E)) (t : WTask E)
    (h : t ∈ ts) : SpecVal.depth t.value ≤ tasksDepth ts := by
  unfold tasksDepth
  induction ts with
  | nil => simp at h
  | cons t' rest ih =>
    rcases List.mem_cons.mp h with he | hm
    · subst he
      simp
    · exact le_trans (ih hm) (by simp)

/-- The fuel `matchModel` passes is exact: further fuel never changes the
state the worklist run produces (every appended task is strictly shallower,
so `tasksDepth` generations already drain the queue). -/
theorem matchModel_more_fuel {E : Type} (d : Driver E) (page : E)
    (data : List (String × SpecVal)) (k : Nat) :
    runGens d page (tasksDepth (initTasks page data) + k) MState.init
        (initTasks page data) =
      runGens d page (tasksDepth (initTasks page data)) MState.init
        (initTasks page data) :=
  runGens_stable d page _ _ _
    (fun t ht => depth_le_tasksDepth (initTasks page data) t ht) k

/-! ## Helper lemmas about the page pool -/

theorem poolInv_applyOp (m : Nat) (st : PoolState) (op : PoolOp)
    (h : PoolInv m st) : PoolInv m (applyOp m st op) := by
  obtain ⟨hlen, hle⟩ := h
  cases op with
  | get w =>
    simp only [applyOp, getPage]
    cases findAvail st.pages with
    | some idx => exact ⟨by simpa using hlen, hle⟩
    | none =>
      by_cases hcmp : st.numPages < m
      · simp only [hcmp, if_true]
        exact ⟨by simp [hlen], hcmp⟩
      · simp only [hcmp, if_false]
        exact ⟨hlen, hle⟩
  | rel p =>
    simp only [applyOp, releasePage]
    cases st.queue with
    | nil => exact ⟨by simpa using hlen, hle⟩
    | cons w rest => exact ⟨by simpa using hlen, hle⟩

theorem poolInv_foldl (m : Nat) (ops : List PoolOp) (st : PoolState)
    (h : PoolInv m st) : PoolInv m (ops.foldl (applyOp m) st) := by
  induction ops generalizing st with
  | nil => exact h
  | cons op rest ih => exact ih _ (poolInv_applyOp m st op h)

theorem poolInv_runOps (m : Nat) (ops : List PoolOp) :
    PoolInv m (runOps m ops) :=
  poolInv_foldl m ops PoolState.start ⟨rfl, Nat.zero_le m⟩

/-- A waiter already in the queue stays there across any operation that is
not a `releasePage` call: `getPage` only ever appends to the queue. -/
theorem mem_queue_applyOp (m : Nat) (st : PoolState) (op : PoolOp) (w : Nat)
    (hmem : w ∈ st.queue) (hop : op.isRel = false) :
    w ∈ (applyOp m st op).queue := by
  cases op with
  | rel p => simp [PoolOp.isRel] at hop
  | get w' =>
    simp only [applyOp, getPage]
    cases findAvail st.pages with
    | some idx => exact hmem
    | none =>
      by_cases hcmp : st.numPages < m
      · simpa [hcmp] using hmem
      · simp only [hcmp, if_false]
        exact List.mem_append_left _ hmem

/-- A waiter leaves the queue only through a `releasePage` call. -/
theorem rel_of_left_queue (m : Nat) (ops : List PoolOp) (st : PoolState)
    (w : Nat) (hmem : w ∈ st.queue)
    (hgone : w ∉ (ops.foldl (applyOp m) st).queue) :
    ∃ op ∈ ops, op.isRel = true := by
  induction ops generalizing st with
  | nil => exact absurd hmem hgone
  | cons op rest ih =>
    by_cases hop : op.isRel = true
    · exact ⟨op, List.mem_cons_self op rest, hop⟩
    · have hmem' := mem_queue_applyOp m st op w hmem (by simpa using hop)
      obtain ⟨op', hmem'', hrel⟩ := ih (applyOp m st op) hmem' hgone
      exact ⟨op', List.mem_cons_of_mem op hmem'', hrel⟩

/-! ## The claims -/

/-- C1: for every `maxPages = N` (N ≥ 1) and every sequence of
`getPage`/`releasePage` calls, at most N page handles ever exist: the
created-handle count never exceeds N.  A `getPage` call either reuses the
first available handle, or creates a new handle only while the created
count is below N, or is queued (when nothing is available and the count has
reached N).  A queued call resolves only through a `releasePage` call: if
the waiter has left the queue after further operations, one of them was a
release. -/
theorem pool_bounded_and_queued_acquire_resolves_after_release
    (m : Nat) (hm : 1 ≤ m) (ops ops₂ : List PoolOp) (w : Nat) :
    (runOps m ops).pages.length ≤ m ∧
    (∀ st w',
      (∃ i, (getPage m st w').2 = .reuse i ∧ findAvail st.pages = some i) ∨
      ((getPage m st w').2 = .create st.pages.length ∧ st.numPages < m) ∨
      ((getPage m st w').2 = .queued w' ∧ findAvail st.pages = none ∧
        m ≤ st.numPages)) ∧
    ((getPage m (runOps m ops) w).2 = .queued w →
      w ∉ (ops₂.foldl (applyOp m) (getPage m (runOps m ops) w).1).queue →
      ∃ op ∈ ops₂, op.isRel = true) := by
  refine ⟨?_, ?_, ?_⟩
  · obtain ⟨h1, h2⟩ := poolInv_runOps m ops
    omega
  · intro st w'
    by_cases hfind : ∃ i, findAvail st.pages = some i
    · obtain ⟨i, hi⟩ := hfind
      exact .inl ⟨i, by simp [getPage, hi], hi⟩
    · have hnone : findAvail st.pages = none := by
        cases h : findAvail st.pages with
        | none => rfl
        | some i => exact absurd ⟨i, h⟩ hfind
      by_cases hcmp : st.numPages < m
      · exact .inr (.inl ⟨by simp [getPage, hnone, hcmp], hcmp⟩)
      · exact .inr (.inr ⟨by simp [getPage, hnone, hcmp], hnone, by omega⟩)
  · intro hq hgone
    have hmem : w ∈ (getPage m (runOps m ops) w).1.queue := by
      unfold getPage at hq ⊢
      cases hfind : findAvail (runOps m ops).pages with
      | some i => simp [hfind] at hq
      | none =>
        by_cases hcmp : (runOps m ops).numPages < m
        · simp [hfind, hcmp] at hq
        · simp [hfind, hcmp]
    exact rel_of_left_queue m ops₂ _ w hmem hgone

/-- Witness for C1 at `maxPages = 1`: a second concurrent `getPage` is
queued, and a `releasePage` is what removes it from the queue. -/
theorem pool_bounded_witness :
    (runOps 1 [.get 0]).pages.length ≤ 1 ∧
    (∃ op ∈ [PoolOp.rel 0], op.isRel = true) := by
  have h := pool_bounded_and_queued_acquire_resolves_after_release
    1 (by decide) [.get 0] [.rel 0] 1
  exact ⟨h.1, h.2.2 (by decide) (by decide)⟩

/-- C5: a `releasePage` call with a non-empty waiter queue hands the handle
to the oldest waiter (the queue head; `getPage` appends new waiters at the
back), removes that waiter, and never marks the handle available — its flag
is not `true` afterwards and the other flags are unchanged.  With an empty
queue it marks the handle available.  The two outcomes are mutually
exclusive: `marked` happens exactly when the queue is empty. -/
theorem release_hands_off_to_oldest_or_marks_available
    (st : PoolState) (p w : Nat) (rest : List Nat) :
    (st.queue = w :: rest →
      (releasePage st p).2 = .handoff w ∧
      (releasePage st p).1.queue = rest ∧
      (releasePage st p).1.pages.get? p ≠ some true ∧
      ∀ q, q ≠ p → (releasePage st p).1.pages.get? q = st.pages.get? q) ∧
    (st.queue = [] →
      (releasePage st p).2 = RelOutcome.marked ∧
      (releasePage st p).1.pages = st.pages.set p true) ∧
    ((releasePage st p).2 = RelOutcome.marked ↔ st.queue = []) ∧
    (∀ m st' w', (getPage m st' w').2 = .queued w' →
      (getPage m st' w').1.queue = st'.queue ++ [w']) := by
  refine ⟨?_, ?_, ?_, ?_⟩
  · intro hq
    refine ⟨by simp [releasePage, hq], by simp [releasePage, hq], ?_, ?_⟩
    · simp only [releasePage, hq]
      rcases Nat.lt_or_ge p st.pages.length with hlt | hge
      · simp [List.getElem?_set_self hlt]
      · have hnone : (st.pages.set p false)[p]? = none := by
          rw [List.getElem?_eq_none_iff]
          simpa using hge
        simp [hnone]
    · intro q hqp
      simp [releasePage, hq, List.getElem?_set_ne (Ne.symm hqp)]
  · intro hq
    exact ⟨by simp [releasePage, hq], by simp [releasePage, hq]⟩
  · constructor
    · intro hmk
      cases hq : st.queue with
      | nil => rfl
      | cons a l => simp [releasePage, hq] at hmk
    · intro hq
      simp [releasePage, hq]
  · intro m st' w' hq
    unfold getPage at hq ⊢
    cases hfind : findAvail st'.pages with
    | some i => simp [hfind] at hq
    | none =>
      by_cases hcmp : st'.numPages < m
      · simp [hfind, hcmp] at hq
      · simp [hfind, hcmp]

/-- Witness for C5: queue `[5, 6]`, releasing handle 0 of two pages. -/
theorem release_hands_off_witness :
    (releasePage ⟨[false, true], [5, 6], 2⟩ 0).2 = .handoff 5 ∧
    (releasePage ⟨[false, true], [5, 6], 2⟩ 0).1.queue = [6] ∧
    (releasePage ⟨[false, true], [5, 6], 2⟩ 0).1.pages.get? 0 ≠ some true ∧
    (releasePage ⟨[false, false], [], 2⟩ 1).2 = RelOutcome.marked := by
  have h1 := release_hands_off_to_oldest_or_marks_available
    ⟨[false, true], [5, 6], 2⟩ 0 5 [6]
  have h2 := release_hands_off_to_oldest_or_marks_available
    ⟨[false, false], [], 2⟩ 1 0 []
  obtain ⟨ho, hq, hflag, -⟩ := h1.1 rfl
  exact ⟨ho, hq, hflag, (h2.2.1 rfl).1⟩

/-- C6: a `repeat` step with `times = 5` over sub-steps `[A, B]` executes
A,B,A,B,A,B,A,B,A,B in exactly that order, the five iterations receiving
the five pairwise-distinct indices `i*5+1 .. i*5+5`; substituting them for
the `$i` token of a path template gives five distinct paths (shown for the
outermost repeat, `i = 0`, on the example config's template).  A `repeat`
whose `times` is zero or omitted behaves exactly like `times = 10`, i.e.
runs its sub-steps ten times. -/
theorem repeat_executes_substeps_in_order_with_distinct_indices
    (a b i : Nat) (subs : RSteps) :
    (execTrace (.rep (some 5) (.cons (.leaf a) (.cons (.leaf b) .nil))) i =
      [(a, i*5+1), (b, i*5+1), (a, i*5+2), (b, i*5+2), (a, i*5+3),
       (b, i*5+3), (a, i*5+4), (b, i*5+4), (a, i*5+5), (b, i*5+5)]) ∧
    ([i*5+1, i*5+2, i*5+3, i*5+4, i*5+5] : List Nat).Nodup ∧
    ((List.range 5).map
      (fun j => replaceIndex "screenshot-$i.png" (0 * 5 + (j + 1)))).Nodup ∧
    (execTrace (.rep (some 0) subs) i = execTrace (.rep (some 10) subs) i) ∧
    (execTrace (.rep none subs) i = execTrace (.rep (some 10) subs) i) :=
  ⟨rfl, by simp, by decide, rfl, rfl⟩

/-- C10: the extraction engine on a spec with no entries throws (the
destructuring of `entries.shift()` on an empty work queue) instead of
producing an empty result sequence, so a `scrape` with empty `data` fails
before writing its output file; with at least one top-level entry the
engine is total and returns a result state. -/
theorem match_throws_on_empty_spec {E : Type} (d : Driver E) (page : E)
    (k : String) (v : SpecVal) (rest : List (String × SpecVal))
    (path : String) :
    (matchModel d page [] =
      .error "TypeError: cannot destructure property of undefined") ∧
    (scrapeWrites d page [] path =
      .error "TypeError: cannot destructure property of undefined") ∧
    (∃ st, matchModel d page ((k, v) :: rest) = .ok st) :=
  ⟨rfl, rfl, _, rfl⟩

/-- C9 (the code's actual behaviour at the claimed input): every `go` step
throws `TypeError: method is not a function` and performs no navigation,
because line 287 evaluates `page[method(...args)]` — calling the local
*string* `method` as a function — instead of the documented
`page[method](...args)`, which would have invoked `goBack`, `goForward` or
`goto` once (as `goStepIntended` records). -/
theorem go_throws_calling_string_as_function (w : String) :
    goStep w = ([], .error "TypeError: method is not a function") ∧
    goStepIntended "back" = ["goBack"] ∧
    goStepIntended "forward" = ["goForward"] ∧
    goStepIntended "https://example.com" = ["goto"] := by
  refine ⟨?_, rfl, rfl, rfl⟩
  unfold goStep goMethodName
  rcases hw : w with _ <;> simp [jsCall]

/-- C4: the collision rule of lines 181-193.  Every value receipt during a
run goes through `assignKey` (first conjunct, the definition of one
`values.forEach` iteration with a parent result slot); a key that is unset
and then receives values in two passes ends as the array of both
contributions in order; a key receiving a value in only one pass holds that
scalar; a key already holding an array (a scalar sequence from an earlier
pass) gets the new contribution appended; and an assignment never disturbs
the other keys of the record. -/
theorem key_collision_becomes_array_in_order
    (st : MState) (refIdx i : Nat) (r r₂ : Record) (k k' : String)
    (v₁ v₂ : String) (l : List JVal) (h : getKey r k = none) :
    (assignValueStep (some refIdx) k st (i, v₁) =
      st.setRec refIdx (assignKey (st.recAt refIdx) k (.str v₁))) ∧
    (getKey (assignKey (assignKey r k (.str v₁)) k (.str v₂)) k =
      some (.arr [.str v₁, .str v₂])) ∧
    (getKey (assignKey r k (.str v₁)) k = some (.str v₁)) ∧
    (getKey r₂ k = some (.arr l) →
      getKey (assignKey r₂ k (.str v₂)) k = some (.arr (l ++ [.str v₂]))) ∧
    (k' ≠ k → getKey (assignKey r k (.str v₁)) k' = getKey r k') := by
  refine ⟨rfl, ?_, getKey_assignKey_none r k _ h, ?_, ?_⟩
  · have h1 := getKey_assignKey_none r k (.str v₁) h
    have h2 := getKey_assignKey_some (assignKey r k (.str v₁)) k (.str v₂) _ h1
    simpa [jsToArr] using h2
  · intro hl
    simpa [jsToArr] using getKey_assignKey_some r₂ k (.str v₂) _ hl
  · intro hk'
    exact getKey_assignKey_ne r k k' _ hk'

/-- Witness for C4: a record with an unrelated key, whose key "k" receives
"a" and then "b", ends with `k = ["a", "b"]`. -/
theorem key_collision_witness :
    getKey (assignKey (assignKey [("other", JVal.str "x")] "k" (.str "a"))
        "k" (.str "b")) "k" = some (.arr [.str "a", .str "b"]) :=
  (key_collision_becomes_array_in_order MState.init 0 0
    [("other", JVal.str "x")] [] "k" "q" "a" "b" [] rfl).2.1

/-! ## Helper lemmas for the crawl branch -/

theorem released_not_mem_tryBody (env : CrawlEnv) (link : String)
    (subs : List Nat) : CEvent.released ∉ (tryBody env link subs).1 := by
  induction subs with
  | nil => simp [tryBody]
  | cons idx rest ih =>
    simp only [tryBody]
    cases env.sub link idx with
    | error e => simp
    | ok u => simpa using ih

theorem released_not_mem_tryBlock (env : CrawlEnv) (link : String)
    (subs : List Nat) : CEvent.released ∉ (tryBlock env link subs).1 := by
  simp only [tryBlock]
  cases env.nav link with
  | error e => simp
  | ok u => simpa using released_not_mem_tryBody env link subs

theorem tryBody_congr (env env₂ : CrawlEnv) (link : String) (subs : List Nat)
    (hsub : ∀ i, env.sub link i = env₂.sub link i) :
    tryBody env link subs = tryBody env₂ link subs := by
  induction subs with
  | nil => rfl
  | cons idx rest ih => simp only [tryBody, hsub idx, ih]

/-- C7: per discovered link, the crawl branch emits its release event last
— after the navigation and sub-step events, whatever their outcomes, since
the `try`/`catch` swallows any throw before `releasePage` runs — and the
branch's promise always resolves, so `Promise.all` resolves and the parent
step continues: `crawlStep` succeeds and runs one branch per link.
Moreover a branch's behaviour depends only on its own link's outcomes: two
environments agreeing on one link produce identical branches there, however
the sibling links fail. -/
theorem crawl_releases_page_and_isolates_branch_failures
    (env env₂ : CrawlEnv) (subs : List Nat) (link : String)
    (links : List String) :
    (∃ mid, (crawlBranch env subs link).1 = .acquire :: (mid ++ [.released]) ∧
      CEvent.released ∉ mid) ∧
    ((crawlBranch env subs link).2 = .ok ()) ∧
    ((crawlStep env subs links).2 = .ok () ∧
      (crawlStep env subs links).1.length = links.length) ∧
    (env.nav link = env₂.nav link → (∀ i, env.sub link i = env₂.sub link i) →
      crawlBranch env subs link = crawlBranch env₂ subs link) := by
  refine ⟨?_, ?_, ⟨rfl, by simp [crawlStep]⟩, ?_⟩
  · unfold crawlBranch
    cases hr : (tryBlock env link subs).2 with
    | error e =>
      exact ⟨(tryBlock env link subs).1 ++ [.logged e], by simp [hr],
        by simpa using released_not_mem_tryBlock env link subs⟩
    | ok u =>
      exact ⟨(tryBlock env link subs).1, by simp [hr],
        released_not_mem_tryBlock env link subs⟩
  · unfold crawlBranch
    cases (tryBlock env link subs).2 <;> rfl
  · intro hnav hsub
    unfold crawlBranch tryBlock
    rw [hnav, tryBody_congr env env₂ link subs hsub]

/-- Witness for C7: two environments that agree on link "L" (navigation ok,
sub-step 0 throws there) but differ on link "M" produce the same branch for
"L", and that branch still ends by releasing its page. -/
theorem crawl_releases_page_witness :
    (crawlBranch ⟨fun _ => .ok (), fun l i =>
        if l = "L" ∧ i = 0 then .error "boom" else .ok ()⟩ [0, 1] "L" =
      crawlBranch ⟨fun _ => .ok (), fun l i =>
        if l = "L" ∧ i = 0 then .error "boom"
        else if l = "M" then .error "other" else .ok ()⟩ [0, 1] "L") ∧
    (crawlBranch ⟨fun _ => .ok (), fun l i =>
        if l = "L" ∧ i = 0 then .error "boom" else .ok ()⟩ [0, 1] "L").1 =
      [.acquire, .navigated "L", .ranSub "L" 0, .logged "boom", .released] := by
  constructor
  · exact (crawl_releases_page_and_isolates_branch_failures
      ⟨fun _ => .ok (), fun l i =>
        if l = "L" ∧ i = 0 then .error "boom" else .ok ()⟩
      ⟨fun _ => .ok (), fun l i =>
        if l = "L" ∧ i = 0 then .error "boom"
        else if l = "M" then .error "other" else .ok ()⟩
      [0, 1] "L" []).2.2.2 rfl (fun i => by by_cases h : i = 0 <;> simp [h])
  · rfl

/-! ## C8: wait dispatch and when its error surfaces -/

/-- Counterexample to C8 as stated: with `config.url = "https://example.com"`
and a single wait step whose `for` is the unknown value "bogus", the run's
first event is the navigation to the config URL (line 411 of part_000) and
the TypeError from the unresolvable `page.waitForBogus` is raised only
afterwards, when the step executes — so the configuration error is *not*
surfaced before navigation is attempted. -/
theorem wait_unknown_for_after_navigation_counterexample :
    (mainTrace "https://example.com" ["bogus"]).get? 0 =
      some (.navigate "https://example.com") ∧
    (mainTrace "https://example.com" ["bogus"]).get? 1 =
      some (.fatal "TypeError: page.waitForBogus is not a function") ∧
    "bogus" ∉ ["function", "navigation", "networkIdle", "request",
      "response", "selector", "timeout", "xpath"] :=
  ⟨rfl, rfl, by decide⟩

/-- C8 as amended: a wait step whose `for` value does not resolve to a wait
primitive of the page (any unknown value whose capitalization is not the
tail of an existing `waitFor*` method, and the empty/absent value) raises a
TypeError — but only when the wait step executes, which is after `main` has
already navigated to `config.url`, not before. -/
theorem wait_unknown_for_raises_after_navigation (u f c : String)
    (hcap : capitalizeJS f = .ok c)
    (hmiss : ("waitFor" ++ (if f = "xpath" then "XPath" else c)) ∉
      pageWaitMethods) :
    ∃ e, waitCall f = .error e ∧
      mainTrace u [f] = [.navigate u, .fatal e] ∧
      (mainTrace u [f]).get? 0 = some (.navigate u) := by
  have hname : waitMethodName f =
      .ok ("waitFor" ++ (if f = "xpath" then "XPath" else c)) := by
    simp [waitMethodName, hcap]
  refine ⟨"TypeError: page." ++
    ("waitFor" ++ (if f = "xpath" then "XPath" else c)) ++
    " is not a function", ?_, ?_, ?_⟩
  · simp [waitCall, hname, hmiss]
  · simp [mainTrace, execWaits, waitCall, hname, hmiss]
  · simp [mainTrace]

/-- Witness for the amended C8 at `for = "bogus"`. -/
theorem wait_unknown_for_witness :
    ∃ e, waitCall "bogus" = .error e ∧
      mainTrace "https://example.com" ["bogus"] =
        [.navigate "https://example.com", .fatal e] ∧
      (mainTrace "https://example.com" ["bogus"]).get? 0 =
        some (.navigate "https://example.com") :=
  wait_unknown_for_raises_after_navigation "https://example.com" "bogus"
    "Bogus" rfl (by decide)

/-- C3 as amended: for a spec whose top-level entries are all childless
(with distinct keys, as JS object keys are), the result sequence's length
is the *maximum* of the per-entry match counts over all entries — it equals
a given entry's own match count only when no sibling matches more — and
result record `j` holds, at each entry's key, the resolved attribute value
or regex match for position `j` whenever `j` is below that entry's match
count; records at positions past an entry's match count do not carry its
key. -/
theorem leaf_entries_extract_by_position {E : Type} (d : Driver E) (page : E)
    (data : List (String × SpecVal)) (hne : data ≠ [])
    (hcl : ∀ e ∈ data, specKids e.2 = SpecChildren.nil)
    (hnd : (data.map Prod.fst).Nodup) :
    ∃ st, matchModel d page data = .ok st ∧
      st.out.length =
        data.foldl (fun L e => max L (entryValues d page e.2).length) 0 ∧
      ∀ e ∈ data,
        (∀ j val, (entryValues d page e.2).get? j = some val →
          getKey (st.recAt j) e.1 = some (.str val)) ∧
        (∀ j, (entryValues d page e.2).length ≤ j →
          getKey (st.recAt j) e.1 = none) := by
  rw [matchModel_childless d page data hne hcl]
  have hcinit : Canon MState.init := rfl
  have hfinit : ∀ e ∈ data, ∀ j, getKey (MState.init.recAt j) e.1 = none := by
    intro e he j
    rfl
  obtain ⟨hc', hlen', hkeys', hentries'⟩ :=
    entriesFold_spec d page data MState.init hcinit hfinit hnd
  refine ⟨_, rfl, ?_, hentries'⟩
  have hout : ∀ st : MState, st.out.length = st.results.length := by
    intro st
    simp [MState.out]
  rw [hout, hc']
  simpa using hlen'

/-- C2 as amended: a spec node with children resolves its own selector or
xpath against the *root page*, not the current element (line 137 of
part_000 queries `page`; for a top-level node the two coincide).  Shown on
a two-level nested spec, for every driver whose top selector matches two
parent elements `e₁, e₂` on the page and whose inner selector matches the
single element `f` on the page: both result records carry the *same*
nested object at `k1.k2`, built only from `f` — the page-rooted match —
with the leaf entry `k3` evaluated against `f`; the parent elements' own
matches for `s2` are never consulted. -/
theorem nested_children_resolve_against_root_page {E : Type} (d : Driver E) (page e₁ e₂ f : E)
    (k1 k2 k3 s1 s2 s3 : String)
    (hs1 : s1.isEmpty = false) (hs2 : s2.isEmpty = false)
    (hs3 : s3.isEmpty = false)
    (hq1 : d.querySel page s1 = [e₁, e₂])
    (hq2 : d.querySel page s2 = [f]) :
    matchOut d page [(k1, nestedNode k2 k3 s1 s2 s3)] =
      .ok [some [(k1, .obj [(k2, .obj (leafOutR k3
              ((d.querySel f s3).map (fun e => d.attr e "textContent"))))])],
           some [(k1, .obj [(k2, .obj (leafOutR k3
              ((d.querySel f s3).map (fun e => d.attr e "textContent"))))])]] := by
  have hred : matchModel d page [(k1, nestedNode k2 k3 s1 s2 s3)] =
      .ok (runGens d page 3 MState.init
        [⟨page, k1, none, nestedNode k2 k3 s1 s2 s3⟩]) := rfl
  unfold matchOut
  rw [hred]
  simp [runGens, processGen, processTask, nestedNode, specFields, truthy,
    jsOrStr, jsOrOpt, SpecChildren.toList, hs1, hs2, hs3, hq1, hq2,
    leafValues, childElemStep, assignValueStep, MState.getOrCreateTop,
    MState.alloc, MState.setRec, MState.recAt, padTo, MState.init,
    List.enum, List.enumFrom, setKey, getKey]
  rw [foldl_assign_some k3 _ 0 4 _ (by simp),
    foldl_assign_some k3 _ 0 5 _ (by simp [MState.setRec])]
  simp only [MState.setRec, MState.recAt, List.get?_eq_getElem?]
  norm_num [List.getElem?_cons_zero, List.getElem?_cons_succ]
  have hlr : List.foldl (fun r v => assignKey r k3 (JVal.str v)) []
      ((d.querySel f s3).map (fun e => d.attr e "textContent")) =
      leafRecord k3 ((d.querySel f s3).map (fun e => d.attr e "textContent")) :=
    rfl
  simp only [hlr]
  simp [Except.map, MState.out, MState.recAt, derefRec, derefVal,
    derefRec_leafRecord]

/-- Counterexample to C2 as stated: in `pageRootDriver`, the inner node's
selector "s2" matches element 3 under its parent element 1 (the current
element) but element 2 under the page.  The claim says the nested record is
built from the current element's match, which would give "viaElem"; the run
instead builds it from the page-rooted match, giving "viaPage". -/
theorem nested_children_query_page_counterexample :
    pageRootDriver.querySel 1 "s2" = [3] ∧
    pageRootDriver.querySel 0 "s2" = [2] ∧
    matchOut pageRootDriver 0 [("a", nestedNode "b" "c" "s1" "s2" "s3")] =
      .ok [some [("a", .obj [("b", .obj [("c", .str "viaPage")])])]] ∧
    pageRootDriver.attr 5 "textContent" = "viaElem" ∧
    "viaPage" ≠ "viaElem" :=
  ⟨rfl, rfl, rfl, rfl, by decide⟩

/-- Witness for the amended C2, on `pagePairDriver`: two parent elements,
one page-level inner match (element 3), identical nested objects in both
records. -/
theorem nested_children_resolve_witness :
    matchOut pagePairDriver 0 [("a", nestedNode "b" "c" "s1" "s2" "s3")] =
      .ok [some [("a", .obj [("b", .obj (leafOutR "c"
              ((pagePairDriver.querySel 3 "s3").map
                (fun e => pagePairDriver.attr e "textContent"))))])],
           some [("a", .obj [("b", .obj (leafOutR "c"
              ((pagePairDriver.querySel 3 "s3").map
                (fun e => pagePairDriver.attr e "textContent"))))])]] :=
  nested_children_resolve_against_root_page pagePairDriver 0 1 2 3
    "a" "b" "c" "s1" "s2" "s3" rfl rfl rfl rfl rfl

/-- Counterexample to C3 as stated: in `twoCountDriver`, the top-level
childless entry "a" matches exactly one element, yet the result sequence
has length 2 (the sibling entry "b" matches two), so "the result sequence's
length equals the number of matched elements" fails for entry "a". -/
theorem leaf_entry_length_counterexample :
    (twoCountDriver.querySel 0 "one").length = 1 ∧
    matchOut twoCountDriver 0 [("a", .strSel "one"), ("b", .strSel "p")] =
      .ok [some [("a", .str "7"), ("b", .str "8")], some [("b", .str "9")]] ∧
    (2 : Nat) ≠ 1 :=
  ⟨rfl, rfl, by decide⟩

/-- Witness for the amended C3 at `twoCountDriver` with entries "a" (one
match) and "b" (two matches). -/
theorem leaf_entries_extract_witness :
    ∃ st, matchModel twoCountDriver 0
        [("a", .strSel "one"), ("b", .strSel "p")] = .ok st ∧
      st.out.length =
        [("a", SpecVal.strSel "one"), ("b", SpecVal.strSel "p")].foldl
          (fun L e => max L (entryValues twoCountDriver 0 e.2).length) 0 ∧
      ∀ e ∈ [("a", SpecVal.strSel "one"), ("b", SpecVal.strSel "p")],
        (∀ j val, (entryValues twoCountDriver 0 e.2).get? j = some val →
          getKey (st.recAt j) e.1 = some (.str val)) ∧
        (∀ j, (entryValues twoCountDriver 0 e.2).length ≤ j →
          getKey (st.recAt j) e.1 = none) :=
  leaf_entries_extract_by_position twoCountDriver 0
    [("a", .strSel "one"), ("b", .strSel "p")]
    (by simp)
    (by intro e he; fin_cases he <;> rfl)
    (by decide)

end Robit
